import Mathlib

/-!
Verification of the version-masking core of `cargo-chef`
(`src/skeleton/version_masking.rs`).

The Rust code walks parsed TOML documents (`toml::Value`) for the
manifests (`Cargo.toml`) and the lock file (`Cargo.lock`) of a project,
discovers the local packages, and replaces every version string that
denotes a local package with the constant placeholder `"0.0.1"`.

The shallow embedding below mirrors the source:
* `Toml` models `toml::Value` (string / integer / boolean scalars,
  arrays, tables as association lists with unique keys).
* Rust panics (`unwrap` on `None` or on a non-string value) are modelled
  by `Option`: a function returns `none` exactly when the corresponding
  Rust code panics, and `some x` when it terminates normally with the
  mutated document `x`.
-/

namespace VersionMasking

/-- Model of `toml::Value`: tagged tree of scalars, arrays and tables.
Tables are association lists addressed by string key (first occurrence
wins, mirroring a map with unique keys). -/
inductive Toml where
  | str (s : String)
  | int (n : Int)
  | boolean (b : Bool)
  | array (xs : List Toml)
  | table (kvs : List (String × Toml))

/-- Lookup of a key in a table's association list (`toml::Value::get`
on a table). -/
def lookupKV : List (String × Toml) → String → Option Toml
  | [], _ => none
  | (k, v) :: rest, key => if k = key then some v else lookupKV rest key

/-- Model of `toml::Value::get(key)`: `some` value on a table containing the key,
`none` on any other value. -/
def Toml.get (t : Toml) (key : String) : Option Toml :=
  match t with
  | .table kvs => lookupKV kvs key
  | _ => none

/-- Replace the value stored at `key` (first occurrence); unchanged list
when the key is absent. -/
def setKV : List (String × Toml) → String → Toml → List (String × Toml)
  | [], _, _ => []
  | (k, w) :: rest, key, v =>
      if k = key then (k, v) :: rest else (k, w) :: setKV rest key v

/-- The Rust idiom `if let Some(x) = t.get_mut(key) { *x = v }`:
replace the value at `key` when present, otherwise leave the document
unchanged (also on non-table values, where `get_mut` yields `None`). -/
def Toml.set (t : Toml) (key : String) (v : Toml) : Toml :=
  match t with
  | .table kvs => .table (setKV kvs key v)
  | _ => t

/-- Model of `toml::Value::as_str`. -/
def Toml.asStr (t : Toml) : Option String :=
  match t with
  | .str s => some s
  | _ => none

/-- The comparison `toml::Value::String(s) == t` used by the source when
matching package names. -/
def tomlEqStr (t : Toml) (s : String) : Bool :=
  match t with
  | .str s2 => s2 = s
  | _ => false

/-- The `Package` record of the source: name and version of a discovered
local crate. -/
structure Package where
  name : String
  version : String

/-- The constant `CONST_VERSION`: the dummy version used for all local crates. -/
def CONST_VERSION : String := "0.0.1"

/-- Split a character list at every occurrence of `c`
(Rust `str::split(c)`, which always yields at least one piece). -/
def splitOnChar (c : Char) : List Char → List (List Char)
  | [] => [[]]
  | x :: xs =>
      if x = c then [] :: splitOnChar c xs
      else
        match splitOnChar c xs with
        | [] => [[x]]
        | y :: ys => (x :: y) :: ys

/-- Split a character list at the first occurrence of `c`
(Rust `str::split_once(c)`): `none` when `c` does not occur. -/
def splitOnceChar (c : Char) : List Char → Option (List Char × List Char)
  | [] => none
  | x :: xs =>
      if x = c then some ([], xs)
      else (splitOnceChar c xs).map (fun p => (x :: p.1, p.2))

/-- Rust `str::split_once(' ')` on a `String`. -/
def splitOnceSpace (s : String) : Option (String × String) :=
  (splitOnceChar ' ' s.data).map (fun p => (⟨p.1⟩, ⟨p.2⟩))

/-- Numeric value of a decimal digit character. -/
def charToDigit (c : Char) : Nat := c.toNat - 48

/-- Parse a list of characters as a `u32`: nonempty, all decimal digits,
value below `2 ^ 32` (overflow is a parse error in Rust). -/
def parseU32core (l : List Char) : Option Nat :=
  if l = [] then none
  else if l.all Char.isDigit then
    let n := l.foldl (fun acc c => acc * 10 + charToDigit c) 0
    if n < 4294967296 then some n else none
  else none

/-- Rust `str::parse::<u32>()`: optional leading `+`, then decimal
digits.  `none` models `Err`, on which the source calls `unwrap`. -/
def parseU32 (s : String) : Option Nat :=
  match s.data with
  | '+' :: rest => parseU32core rest
  | l => parseU32core l

/-- The parse performed inside `covers`: the first two dot-separated
components of a version string, both parsed as `u32`.  `none` models the
panic of `splits.next().unwrap()` / `.parse().unwrap()`. -/
def parseMajorMinor (s : String) : Option (Nat × Nat) :=
  match splitOnChar '.' s.data with
  | c0 :: rest =>
      match parseU32 ⟨c0⟩ with
      | some a =>
          match rest with
          | c1 :: _ => (parseU32 ⟨c1⟩).map (fun b => (a, b))
          | [] => none
      | none => none
  | [] => none

/-- Model of `covers(first, second)` of the source.  `some b` is the returned
boolean; `none` models a panic while parsing either argument. -/
def covers (first second : String) : Option Bool :=
  if second = "*" then some true
  else
    match parseMajorMinor first, parseMajorMinor second with
    | some (fM, fm), some (sM, sm) =>
        if fM ≠ sM then some false
        else if fM ≠ 0 then some true
        else some (decide (fm = sm))
    | _, _ => none

/-- The closure
`locals.iter().any(|p| Value::String(p.name) == name && covers(&p.version, version.as_str().unwrap()))`
shared by the lock filter and the manifest dependency masker.  The
`as_str().unwrap()` and the unwraps inside `covers` only run once a name
matches; `none` models those panics. -/
def anyCovers (locals : List Package) (name version : Toml) : Option Bool :=
  match locals with
  | [] => some false
  | p :: rest =>
      if tomlEqStr name p.name then
        match version with
        | .str v =>
            match covers p.version v with
            | none => none
            | some true => some true
            | some false => anyCovers rest name version
        | _ => none
      else anyCovers rest name version

/-- Body of the dependency loop of `_mask`: resolve the effective
package name (`package` field if present, else the table key), then,
when the entry has a `version` field and some local package matches and
covers it, replace that field with `CONST_VERSION`. -/
def maskDepEntry (locals : List Package) (key : String) (dep : Toml) : Option Toml :=
  let pkgName := (dep.get "package").getD (Toml.str key)
  match dep.get "version" with
  | none => some dep
  | some v =>
      match anyCovers locals pkgName v with
      | none => none
      | some true => some (dep.set "version" (Toml.str CONST_VERSION))
      | some false => some dep

/-- The iteration of `_mask` over one dependency table. -/
def maskDepsTable (locals : List Package) : List (String × Toml) → Option (List (String × Toml))
  | [] => some []
  | (k, dep) :: rest => do
      let dep' ← maskDepEntry locals k dep
      let rest' ← maskDepsTable locals rest
      pure ((k, dep') :: rest')

/-- One iteration of `_mask`'s outer loop: descend into the table stored
under `key` (skipped when absent or not a table) and mask its entries. -/
def maskOneSection (locals : List Package) (key : String) (tv : Toml) : Option Toml :=
  match tv.get key with
  | some (.table deps) =>
      (maskDepsTable locals deps).map (fun ds => tv.set key (.table ds))
  | _ => some tv

/-- The function `_mask` of the source: mask the `dependencies`, `dev-dependencies`
and `build-dependencies` tables of a TOML value. -/
def maskDependencyTables (locals : List Package) (tv : Toml) : Option Toml := do
  let t1 ← maskOneSection locals "dependencies" tv
  let t2 ← maskOneSection locals "dev-dependencies" t1
  maskOneSection locals "build-dependencies" t2

/-- The loop over the entries of the `target` table, applying `_mask` to
each target configuration. -/
def maskTargets (locals : List Package) : List (String × Toml) → Option (List (String × Toml))
  | [] => some []
  | (k, cfg) :: rest => do
      let cfg' ← maskDependencyTables locals cfg
      let rest' ← maskTargets locals rest
      pure ((k, cfg') :: rest')

/-- The `target` part of `mask_local_dependency_versions`. -/
def maskTargetSection (locals : List Package) (m : Toml) : Option Toml :=
  match m.get "target" with
  | some (.table targets) =>
      (maskTargets locals targets).map (fun ts => m.set "target" (.table ts))
  | _ => some m

/-- The unconditional masking of `workspace.package.version`: replace
the `version` value of the workspace's `package` table whenever it is
present, whatever its type. -/
def maskWorkspacePkg (ws : Toml) : Toml :=
  match ws.get "package" with
  | some pkg => ws.set "package" (pkg.set "version" (Toml.str CONST_VERSION))
  | none => ws

/-- The `workspace` part of `mask_local_dependency_versions`: mask the
workspace package version, then `_mask` the workspace tables. -/
def maskWorkspaceSection (locals : List Package) (m : Toml) : Option Toml :=
  match m.get "workspace" with
  | some ws =>
      (maskDependencyTables locals (maskWorkspacePkg ws)).map
        (fun w => m.set "workspace" w)
  | none => some m

/-- Model of `mask_local_dependency_versions` of the source: `_mask` at the
manifest root, then under every `target` entry, then the workspace. -/
def mask_local_dependency_versions (locals : List Package) (manifest : Toml) : Option Toml := do
  let m1 ← maskDependencyTables locals manifest
  let m2 ← maskTargetSection locals m1
  maskWorkspaceSection locals m2

/-- The self-version masking of `mask_local_versions_in_manifests`: the
manifest's own `package.version` is replaced with `CONST_VERSION`, but
only when its current value is a string. -/
def mask_self_version (m : Toml) : Toml :=
  match m.get "package" with
  | some pkg =>
      match pkg.get "version" with
      | some (.str _) => m.set "package" (pkg.set "version" (Toml.str CONST_VERSION))
      | _ => m
  | none => m

/-- Model of `mask_local_versions_in_manifests`: every manifest gets its own
version masked and then its dependency tables masked. -/
def mask_local_versions_in_manifests (locals : List Package) : List Toml → Option (List Toml)
  | [] => some []
  | m :: ms => do
      let m' ← mask_local_dependency_versions locals (mask_self_version m)
      let ms' ← mask_local_versions_in_manifests locals ms
      pure (m' :: ms')

/-- The strings `format!("{} {}", p.name, p.version)` the lock masker
compares dependency references against. -/
def lockDepStrings (locals : List Package) : List String :=
  locals.map (fun p => p.name ++ " " ++ p.version)

/-- Rewriting of one dependency-reference value of a masked lock entry:
`as_str().unwrap()` (`none` on non-strings), membership in the local
`"name version"` strings, and on a match
`format!("{} {}", s.split_once(' ').unwrap().0, CONST_VERSION)`. -/
def rewriteDep (ds : List String) (d : Toml) : Option Toml :=
  match d with
  | .str s =>
      if s ∈ ds then
        (splitOnceSpace s).map (fun pr => Toml.str (pr.1 ++ " " ++ CONST_VERSION))
      else some (.str s)
  | _ => none

/-- The loop over a masked lock entry's `dependencies` array. -/
def rewriteDeps (ds : List String) : List Toml → Option (List Toml)
  | [] => some []
  | d :: rest => do
      let d' ← rewriteDep ds d
      let rest' ← rewriteDeps ds rest
      pure (d' :: rest')

/-- The `for_each` body of `mask_local_versions_in_lockfile`, run on
entries selected by the filter: set the `version` field to
`CONST_VERSION` and rewrite the `dependencies` array when present. -/
def maskLockEntry (locals : List Package) (entry : Toml) : Option Toml :=
  let e := entry.set "version" (Toml.str CONST_VERSION)
  match e.get "dependencies" with
  | some (.array deps) =>
      (rewriteDeps (lockDepStrings locals) deps).map
        (fun ds => e.set "dependencies" (.array ds))
  | _ => some e

/-- The filter of `mask_local_versions_in_lockfile`: a lock entry
denotes a local package when it has `name` and `version` fields and some
local package matches by name with a covering version. -/
def isLocalEntry (locals : List Package) (entry : Toml) : Option Bool :=
  match entry.get "name" with
  | none => some false
  | some name =>
      match entry.get "version" with
      | none => some false
      | some version => anyCovers locals name version

/-- Treatment of a single entry of the lock `package` array: masked when
the filter selects it, untouched otherwise. -/
def maskLockEntryStep (locals : List Package) (entry : Toml) : Option Toml := do
  let b ← isLocalEntry locals entry
  if b then maskLockEntry locals entry else pure entry

/-- The `iter_mut().filter(..).for_each(..)` over the lock `package`
array. -/
def maskLockPackages (locals : List Package) : List Toml → Option (List Toml)
  | [] => some []
  | e :: rest => do
      let e' ← maskLockEntryStep locals e
      let rest' ← maskLockPackages locals rest
      pure (e' :: rest')

/-- Model of `mask_local_versions_in_lockfile`: mask the entries of the lock
document's `package` array (skipped when absent or not an array). -/
def mask_local_versions_in_lockfile (locals : List Package) (lock : Toml) : Option Toml :=
  match lock.get "package" with
  | some (.array entries) =>
      (maskLockPackages locals entries).map (fun es => lock.set "package" (.array es))
  | _ => some lock

/-- The extraction performed per manifest by `parse_local_crate_names`:
`some` exactly when the manifest has a `package` table with both a
string `name` and a string `version`. -/
def localPackageOf (m : Toml) : Option Package :=
  match m.get "package" with
  | some pkg =>
      match pkg.get "name", pkg.get "version" with
      | some (.str n), some (.str v) => some ⟨n, v⟩
      | _, _ => none
  | none => none

/-- The accumulator loop of `parse_local_crate_names`
(`local_package_names.push(..)`). -/
def parseLocalGo (acc : List Package) : List Toml → List Package
  | [] => acc
  | m :: ms =>
      match localPackageOf m with
      | some p => parseLocalGo (acc ++ [p]) ms
      | none => parseLocalGo acc ms

/-- Model of `parse_local_crate_names` of the source. -/
def parse_local_crate_names (ms : List Toml) : List Package :=
  parseLocalGo [] ms

/-- Model of `mask_local_crate_versions`, the public entry point: discover the
local packages, mask all manifests, then mask the lock file when one is
present. -/
def mask_local_crate_versions (manifests : List Toml) (lock : Option Toml) :
    Option (List Toml × Option Toml) := do
  let locals := parse_local_crate_names manifests
  let ms ← mask_local_versions_in_manifests locals manifests
  match lock with
  | some l => (mask_local_versions_in_lockfile locals l).map (fun l2 => (ms, some l2))
  | none => pure (ms, none)

/-- Two-level lookup `t.get(k1).and_then(|x| x.get(k2))`, used to state
properties about nested fields such as `package.version`. -/
def getPath (t : Toml) (k1 k2 : String) : Option Toml :=
  (t.get k1).bind (fun x => x.get k2)

/-! ### Concrete documents used by the closed theorems -/

/-- Manifest of a local package `bar` at version `1.0` that also
declares a dependency on `bar` with requirement `0.0.5`. -/
def idemManifest : Toml := .table [
  ("package", .table [("name", .str "bar"), ("version", .str "1.0")]),
  ("dependencies", .table [("bar", .table [("version", .str "0.0.5")])])]

/-- The manifest `idemManifest` after one masking run: the self version is masked,
the dependency requirement `0.0.5` is not covered by `1.0` and stays. -/
def idemManifest1 : Toml := .table [
  ("package", .table [("name", .str "bar"), ("version", .str "0.0.1")]),
  ("dependencies", .table [("bar", .table [("version", .str "0.0.5")])])]

/-- The manifest `idemManifest` after two masking runs: the second run rediscovers
`bar` at the placeholder version `0.0.1`, which covers `0.0.5`, so the
dependency requirement is masked as well. -/
def idemManifest2 : Toml := .table [
  ("package", .table [("name", .str "bar"), ("version", .str "0.0.1")]),
  ("dependencies", .table [("bar", .table [("version", .str "0.0.1")])])]

/-- Manifest of a local package `bar` at version `1.0.3`. -/
def refsManifest : Toml := .table [
  ("package", .table [("name", .str "bar"), ("version", .str "1.0.3")])]

/-- Lock document with a non-local entry `foo` referencing `bar 1.0.3`
and a local entry `bar`. -/
def refsLock : Toml := .table [
  ("package", .array [
    .table [("name", .str "foo"), ("version", .str "2.0.0"),
            ("dependencies", .array [.str "bar 1.0.3"])],
    .table [("name", .str "bar"), ("version", .str "1.0.3")]])]

/-- The lock `refsLock` after masking against `refsManifest`: `bar`'s version is
masked, but the reference string `"bar 1.0.3"` inside the non-local
entry `foo` is left untouched. -/
def refsLockMasked : Toml := .table [
  ("package", .array [
    .table [("name", .str "foo"), ("version", .str "2.0.0"),
            ("dependencies", .array [.str "bar 1.0.3"])],
    .table [("name", .str "bar"), ("version", .str "0.0.1")]])]

/-- The manifest `refsManifest` after masking: only the self version changes. -/
def refsManifestMasked : Toml := .table [
  ("package", .table [("name", .str "bar"), ("version", .str "0.0.1")])]

/-! ### Lemmas about table lookup and update -/

theorem lookupKV_setKV_self (kvs : List (String × Toml)) (k : String) (v w : Toml)
    (h : lookupKV kvs k = some v) : lookupKV (setKV kvs k w) k = some w := by
  induction kvs with
  | nil => simp [lookupKV] at h
  | cons kv rest ih =>
      obtain ⟨k1, v1⟩ := kv
      by_cases hk : k1 = k
      · simp [lookupKV, setKV, hk]
      · simp [lookupKV, setKV, hk] at h ⊢
        exact ih h

theorem lookupKV_setKV_other (kvs : List (String × Toml)) (k k2 : String) (w : Toml)
    (h : k2 ≠ k) : lookupKV (setKV kvs k w) k2 = lookupKV kvs k2 := by
  induction kvs with
  | nil => simp [setKV]
  | cons kv rest ih =>
      obtain ⟨k1, v1⟩ := kv
      by_cases hk : k1 = k
      · subst hk
        simp [lookupKV, setKV, Ne.symm h]
      · simp [lookupKV, setKV, hk]
        by_cases hk2 : k1 = k2 <;> simp [hk2, ih]

theorem setKV_same (kvs : List (String × Toml)) (k : String) (v : Toml)
    (h : lookupKV kvs k = some v) : setKV kvs k v = kvs := by
  induction kvs with
  | nil => simp [lookupKV] at h
  | cons kv rest ih =>
      obtain ⟨k1, v1⟩ := kv
      by_cases hk : k1 = k
      · simp [lookupKV, hk] at h
        simp [setKV, hk, h]
      · simp [lookupKV, setKV, hk] at h ⊢
        exact ih h

theorem Toml.get_table (t : Toml) (k : String) (v : Toml) (h : t.get k = some v) :
    ∃ kvs, t = .table kvs := by
  cases t <;> simp [Toml.get] at h ⊢

theorem Toml.get_set_self (t : Toml) (k : String) (v w : Toml) (h : t.get k = some v) :
    (t.set k w).get k = some w := by
  obtain ⟨kvs, rfl⟩ := t.get_table k v h
  simp only [Toml.get, Toml.set] at h ⊢
  exact lookupKV_setKV_self kvs k v w h

theorem Toml.get_set_other (t : Toml) (k k2 : String) (w : Toml) (h : k2 ≠ k) :
    (t.set k w).get k2 = t.get k2 := by
  cases t <;> simp [Toml.get, Toml.set]
  exact lookupKV_setKV_other _ k k2 w h

theorem Toml.set_same (t : Toml) (k : String) (v : Toml) (h : t.get k = some v) :
    t.set k v = t := by
  obtain ⟨kvs, rfl⟩ := t.get_table k v h
  simp only [Toml.get] at h
  simp only [Toml.set]
  rw [setKV_same kvs k v h]

theorem Toml.set_absent (t : Toml) (k : String) (v : Toml) (h : t.get k = none) :
    t.set k v = t := by
  cases t <;> simp [Toml.set]
  rename_i kvs
  simp only [Toml.get] at h
  induction kvs with
  | nil => simp [setKV]
  | cons kv rest ih =>
      obtain ⟨k1, v1⟩ := kv
      by_cases hk : k1 = k
      · simp [lookupKV, hk] at h
      · simp [lookupKV, hk] at h
        simp [setKV, hk, ih h]

/-! ### Lemmas about `tomlEqStr`, `covers` and `anyCovers` -/

theorem tomlEqStr_iff (t : Toml) (s : String) : tomlEqStr t s = true ↔ t = .str s := by
  cases t <;> simp [tomlEqStr]

theorem covers_star (s : String) : covers s "*" = some true := by
  simp [covers]

theorem covers_isSome (a b : String)
    (ha : (parseMajorMinor a).isSome)
    (hb : b = "*" ∨ (parseMajorMinor b).isSome) :
    (covers a b).isSome := by
  rcases hb with hb | hb
  · subst hb; simp [covers_star]
  · rw [Option.isSome_iff_exists] at ha hb
    obtain ⟨⟨aM, am⟩, ha⟩ := ha
    obtain ⟨⟨bM, bm⟩, hb⟩ := hb
    by_cases hstar : b = "*"
    · subst hstar; simp [covers_star]
    · simp only [covers, hstar, if_false, ha, hb]
      by_cases h1 : aM = bM <;> by_cases h2 : aM = 0 <;> simp [h1, h2] <;>
        split <;> simp

theorem anyCovers_of_no_match (locals : List Package) (name version : Toml)
    (h : ∀ p ∈ locals, name ≠ .str p.name) :
    anyCovers locals name version = some false := by
  induction locals with
  | nil => simp [anyCovers]
  | cons p rest ih =>
      have hp : name ≠ Toml.str p.name := h p (by simp)
      have : tomlEqStr name p.name = false := by
        cases hb : tomlEqStr name p.name with
        | false => rfl
        | true => exact absurd ((tomlEqStr_iff name p.name).mp hb) hp
      simp only [anyCovers, this, Bool.false_eq_true, if_false]
      exact ih (fun q hq => h q (by simp [hq]))

theorem anyCovers_some_iff (locals : List Package) (name version : Toml) (b : Bool)
    (h : anyCovers locals name version = some b) :
    (b = true ↔ ∃ p ∈ locals, name = .str p.name ∧
      ∃ v, version = .str v ∧ covers p.version v = some true) := by
  induction locals with
  | nil =>
      simp [anyCovers] at h
      subst h
      simp
  | cons p rest ih =>
      by_cases hname : tomlEqStr name p.name = true
      · have hname' : name = .str p.name := (tomlEqStr_iff name p.name).mp hname
        simp only [anyCovers, hname, if_true] at h
        cases version with
        | str v =>
            cases hcov : covers p.version v with
            | none => simp [hcov] at h
            | some c =>
                cases c with
                | true =>
                    simp [hcov] at h
                    subst h
                    constructor
                    · intro _
                      exact ⟨p, by simp, hname', v, rfl, hcov⟩
                    · intro _; rfl
                | false =>
                    simp only [hcov] at h
                    rw [ih h]
                    constructor
                    · rintro ⟨q, hq, h1, v2, h2, h3⟩
                      exact ⟨q, by simp [hq], h1, v2, h2, h3⟩
                    · rintro ⟨q, hq, h1, v2, h2, h3⟩
                      simp only [List.mem_cons] at hq
                      rcases hq with rfl | hq
                      · exfalso
                        cases h2
                        rw [h3] at hcov
                        simp at hcov
                      · exact ⟨q, hq, h1, v2, h2, h3⟩
        | int n => simp at h
        | boolean c => simp at h
        | array xs => simp at h
        | table kvs => simp at h
      · have hname' : name ≠ .str p.name := by
          intro hc
          exact hname ((tomlEqStr_iff name p.name).mpr hc)
        simp only [anyCovers, hname, if_false] at h
        rw [ih h]
        constructor
        · rintro ⟨q, hq, h1, v2, h2, h3⟩
          exact ⟨q, by simp [hq], h1, v2, h2, h3⟩
        · rintro ⟨q, hq, h1, v2, h2, h3⟩
          simp only [List.mem_cons] at hq
          rcases hq with rfl | hq
          · exact absurd h1 hname'
          · exact ⟨q, hq, h1, v2, h2, h3⟩

theorem anyCovers_isSome (locals : List Package) (name : Toml) (w : String)
    (hloc : ∀ p ∈ locals, (parseMajorMinor p.version).isSome)
    (hw : w = "*" ∨ (parseMajorMinor w).isSome) :
    (anyCovers locals name (.str w)).isSome := by
  induction locals with
  | nil => simp [anyCovers]
  | cons p rest ih =>
      have hp : (parseMajorMinor p.version).isSome := hloc p (by simp)
      have hrest := ih (fun q hq => hloc q (by simp [hq]))
      by_cases hname : tomlEqStr name p.name = true
      · simp only [anyCovers, hname, if_true]
        have := covers_isSome p.version w hp hw
        rw [Option.isSome_iff_exists] at this
        obtain ⟨c, hc⟩ := this
        cases c <;> simp [hc, hrest]
      · simp only [anyCovers, hname, Bool.false_eq_true, if_false]
        exact hrest

/-! ### Lemmas about `splitOnceChar` and `rewriteDep` -/

theorem splitOnceChar_append (c : Char) (a b : List Char) (h : c ∉ a) :
    splitOnceChar c (a ++ c :: b) = some (a, b) := by
  induction a with
  | nil => simp [splitOnceChar]
  | cons x xs ih =>
      have hx : x ≠ c := by
        intro hc
        exact h (by simp [hc])
      have hxs : c ∉ xs := fun hc => h (by simp [hc])
      simp [splitOnceChar, hx, ih hxs]

theorem rewriteDep_not_mem (ds : List String) (s : String) (h : s ∉ ds) :
    rewriteDep ds (.str s) = some (.str s) := by
  simp [rewriteDep, h]

theorem rewriteDep_local (locals : List Package) (p : Package) (hp : p ∈ locals)
    (hname : ' ' ∉ p.name.data) :
    rewriteDep (lockDepStrings locals) (.str (p.name ++ " " ++ p.version)) =
      some (.str (p.name ++ " " ++ CONST_VERSION)) := by
  have hmem : p.name ++ " " ++ p.version ∈ lockDepStrings locals := by
    simp only [lockDepStrings, List.mem_map]
    exact ⟨p, hp, rfl⟩
  have hdata : (p.name ++ " " ++ p.version).data = p.name.data ++ ' ' :: p.version.data := by
    rw [String.data_append, String.data_append]
    simp
  have hsplit : splitOnceSpace (p.name ++ " " ++ p.version) = some (p.name, p.version) := by
    simp only [splitOnceSpace, hdata, splitOnceChar_append ' ' p.name.data p.version.data hname]
    rfl
  simp [rewriteDep, hmem, hsplit]

theorem maskLockEntry_version (locals : List Package) (entry e' v : Toml)
    (hv : entry.get "version" = some v)
    (h : maskLockEntry locals entry = some e') :
    e'.get "version" = some (.str CONST_VERSION) := by
  have he1 : (entry.set "version" (Toml.str CONST_VERSION)).get "version" =
      some (.str CONST_VERSION) := entry.get_set_self "version" v _ hv
  cases hdep : (entry.set "version" (Toml.str CONST_VERSION)).get "dependencies" with
  | none =>
      simp only [maskLockEntry, hdep, Option.some_inj] at h
      rw [← h]; exact he1
  | some d =>
      cases d with
      | array deps =>
          simp only [maskLockEntry, hdep] at h
          obtain ⟨ds, hds, rfl⟩ := Option.map_eq_some'.mp h
          rw [Toml.get_set_other _ "dependencies" "version" _ (by decide)]
          exact he1
      | str s =>
          simp only [maskLockEntry, hdep, Option.some_inj] at h
          rw [← h]; exact he1
      | int n =>
          simp only [maskLockEntry, hdep, Option.some_inj] at h
          rw [← h]; exact he1
      | boolean c =>
          simp only [maskLockEntry, hdep, Option.some_inj] at h
          rw [← h]; exact he1
      | table kvs =>
          simp only [maskLockEntry, hdep, Option.some_inj] at h
          rw [← h]; exact he1

theorem maskLockEntryStep_not_selected (locals : List Package) (entry : Toml)
    (h : isLocalEntry locals entry = some false) :
    maskLockEntryStep locals entry = some entry := by
  simp [maskLockEntryStep, h]

/-! ### Claim theorems -/

/-- C1: for every pair of version strings whose first two dot-separated
components parse as `major.minor`, `covers` returns true when the
second argument is the literal `"*"`; otherwise it returns false when
the majors differ, true when the majors are equal and nonzero, and
(when the major is 0) true exactly when the minors are equal; in
particular `covers "1.2" "1.9" = true`, `covers "1.2" "2.0" = false`,
`covers "0.3" "0.3" = true`, `covers "0.3" "0.4" = false` and
`covers "0.0" "*" = true`. -/
theorem covers_characterization (a b s : String) (aM am bM bm : Nat)
    (ha : parseMajorMinor a = some (aM, am))
    (hb : parseMajorMinor b = some (bM, bm)) (hstar : b ≠ "*") :
    covers a b = some (decide (aM = bM ∧ (aM ≠ 0 ∨ am = bm))) ∧
    covers s "*" = some true ∧
    covers "1.2" "1.9" = some true ∧ covers "1.2" "2.0" = some false ∧
    covers "0.3" "0.3" = some true ∧ covers "0.3" "0.4" = some false ∧
    covers "0.0" "*" = some true := by
  refine ⟨?_, covers_star s, by decide, by decide, by decide, by decide, by decide⟩
  simp only [covers, hstar, if_false, ha, hb]
  rcases eq_or_ne aM bM with rfl | h1
  · by_cases h2 : aM = 0 <;> by_cases h3 : am = bm <;> simp [h2, h3]
  · simp [h1]

theorem covers_characterization_witness :
    covers "1.2" "1.9" = some (decide ((1 : Nat) = 1 ∧ ((1 : Nat) ≠ 0 ∨ (2 : Nat) = 9))) ∧
    covers "0.0" "*" = some true ∧
    covers "1.2" "1.9" = some true ∧ covers "1.2" "2.0" = some false ∧
    covers "0.3" "0.3" = some true ∧ covers "0.3" "0.4" = some false ∧
    covers "0.0" "*" = some true :=
  covers_characterization "1.2" "1.9" "0.0" 1 2 1 9 (by decide) (by decide) (by decide)

/-- C2: the claim states that a malformed version (missing or
non-numeric `major.minor` component) makes the predicate signal a
recoverable `MalformedVersion` error.  The source instead calls
`unwrap` on the failed parse and panics; in this embedding the panic is
the `none` result.  The theorem evaluates `covers` at malformed inputs
(missing minor, non-numeric minor, empty string, non-numeric major) and
shows each one panics instead of producing any boolean or error
value. -/
theorem covers_panics_on_malformed :
    covers "1" "2.0" = none ∧ covers "1.0" "abc" = none ∧
    covers "" "1.0" = none ∧ covers "1.x" "1.0" = none ∧
    covers "1.0" "7" = none :=
  ⟨by decide, by decide, by decide, by decide, by decide⟩

/-- C6: a lock entry is selected for masking exactly when its `name`
field equals some discovered local package's name and its `version`
field is covered (via `covers`, not string equality) by that package's
recorded version; a selected entry gets its `version` field replaced by
the placeholder, and an unselected entry is left entirely unchanged. -/
theorem lock_entry_selection (locals : List Package) (entry e' : Toml) (b : Bool)
    (h : isLocalEntry locals entry = some b)
    (hstep : maskLockEntryStep locals entry = some e') :
    (b = true ↔ ∃ p ∈ locals, entry.get "name" = some (.str p.name) ∧
        ∃ v, entry.get "version" = some (.str v) ∧ covers p.version v = some true) ∧
    (if b then e'.get "version" = some (.str CONST_VERSION) else e' = entry) := by
  cases hname : entry.get "name" with
  | none =>
      have hb : b = false := by
        simp [isLocalEntry, hname] at h
        exact h
      subst hb
      have he : e' = entry := by
        simp [maskLockEntryStep, isLocalEntry, hname] at hstep
        exact hstep.symm
      subst he
      simp [hname]
  | some name =>
      cases hver : entry.get "version" with
      | none =>
          have hb : b = false := by
            simp [isLocalEntry, hname, hver] at h
            exact h
          subst hb
          have he : e' = entry := by
            simp [maskLockEntryStep, isLocalEntry, hname, hver] at hstep
            exact hstep.symm
          subst he
          simp [hver]
      | some version =>
          have hany : anyCovers locals name version = some b := by
            simpa [isLocalEntry, hname, hver] using h
          have hiff := anyCovers_some_iff locals name version b hany
          have hstep' : (if b then maskLockEntry locals entry else some entry) = some e' := by
            simpa [maskLockEntryStep, isLocalEntry, hname, hver, hany] using hstep
          refine ⟨?_, ?_⟩
          · rw [hiff]
            constructor
            · rintro ⟨p, hp, rfl, v, rfl, hc⟩
              exact ⟨p, hp, rfl, v, rfl, hc⟩
            · rintro ⟨p, hp, h1, v, h2, hc⟩
              exact ⟨p, hp, Option.some_inj.mp h1, v, Option.some_inj.mp h2, hc⟩
          · cases b with
            | false =>
                simp only [if_false] at hstep' ⊢
                simp only [Bool.false_eq_true, if_false] at hstep' ⊢
                exact (Option.some_inj.mp hstep').symm
            | true =>
                simp only [if_true] at hstep' ⊢
                obtain ⟨p, hp, h1, v, h2, hc⟩ := hiff.mp rfl
                have h2' : entry.get "version" = some (.str v) := by
                  rw [hver, h2]
                exact maskLockEntry_version locals entry e' (.str v) h2' hstep'

theorem lock_entry_selection_witness :
    ((true : Bool) = true ↔ ∃ p ∈ [(⟨"bar", "1.0"⟩ : Package)],
        (Toml.table [("name", .str "bar"), ("version", .str "1.2.7")]).get "name" =
          some (.str p.name) ∧
        ∃ v, (Toml.table [("name", .str "bar"), ("version", .str "1.2.7")]).get "version" =
          some (.str v) ∧ covers p.version v = some true) ∧
    (if (true : Bool) then
        (Toml.table [("name", .str "bar"), ("version", .str "0.0.1")]).get "version" =
          some (.str CONST_VERSION)
      else Toml.table [("name", .str "bar"), ("version", .str "0.0.1")] =
        Toml.table [("name", .str "bar"), ("version", .str "1.2.7")]) :=
  lock_entry_selection [⟨"bar", "1.0"⟩]
    (.table [("name", .str "bar"), ("version", .str "1.2.7")])
    (.table [("name", .str "bar"), ("version", .str "0.0.1")]) true
    rfl rfl

/-- C7: the effective referenced package name of a table-form manifest
dependency entry is its `package` field when present, otherwise the
table key; the entry's `version` field is replaced with the placeholder
exactly when that effective name equals some local package's name and
the version is covered by that package's recorded version.  In
particular `foo = { package = "bar", version = "1.0" }` is masked when
`bar` is local with a covering version (matching on `bar`), and is not
masked when only `foo` is local. -/
theorem dependency_effective_name_matching (locals : List Package) (k v : String)
    (dep : Toml) (b : Bool)
    (hver : dep.get "version" = some (.str v))
    (hany : anyCovers locals ((dep.get "package").getD (.str k)) (.str v) = some b) :
    maskDepEntry locals k dep =
      some (if b then dep.set "version" (.str CONST_VERSION) else dep) ∧
    (b = true ↔ ∃ p ∈ locals, (dep.get "package").getD (.str k) = .str p.name ∧
        covers p.version v = some true) ∧
    maskDepEntry [⟨"bar", "1.0.2"⟩] "foo"
      (.table [("package", .str "bar"), ("version", .str "1.0")]) =
      some (.table [("package", .str "bar"), ("version", .str CONST_VERSION)]) ∧
    maskDepEntry [⟨"foo", "1.0.2"⟩] "foo"
      (.table [("package", .str "bar"), ("version", .str "1.0")]) =
      some (.table [("package", .str "bar"), ("version", .str "1.0")]) := by
  refine ⟨?_, ?_, rfl, rfl⟩
  · cases b with
    | false => simp [maskDepEntry, hver, hany]
    | true => simp [maskDepEntry, hver, hany]
  · rw [anyCovers_some_iff locals ((dep.get "package").getD (.str k)) (.str v) b hany]
    constructor
    · rintro ⟨p, hp, h1, v2, h2, h3⟩
      cases h2
      exact ⟨p, hp, h1, h3⟩
    · rintro ⟨p, hp, h1, h3⟩
      exact ⟨p, hp, h1, v, rfl, h3⟩

theorem dependency_effective_name_matching_witness :
    maskDepEntry [⟨"bar", "1.0.2"⟩] "foo"
      (.table [("package", .str "bar"), ("version", .str "1.0")]) =
      some (if true then
        (Toml.table [("package", .str "bar"), ("version", .str "1.0")]).set "version"
          (.str CONST_VERSION)
      else .table [("package", .str "bar"), ("version", .str "1.0")]) ∧
    ((true : Bool) = true ↔ ∃ p ∈ [(⟨"bar", "1.0.2"⟩ : Package)],
        ((Toml.table [("package", .str "bar"), ("version", .str "1.0")]).get
          "package").getD (.str "foo") = .str p.name ∧
        covers p.version "1.0" = some true) ∧
    maskDepEntry [⟨"bar", "1.0.2"⟩] "foo"
      (.table [("package", .str "bar"), ("version", .str "1.0")]) =
      some (.table [("package", .str "bar"), ("version", .str CONST_VERSION)]) ∧
    maskDepEntry [⟨"foo", "1.0.2"⟩] "foo"
      (.table [("package", .str "bar"), ("version", .str "1.0")]) =
      some (.table [("package", .str "bar"), ("version", .str "1.0")]) :=
  dependency_effective_name_matching [⟨"bar", "1.0.2"⟩] "foo" "1.0"
    (.table [("package", .str "bar"), ("version", .str "1.0")]) true rfl rfl

theorem parseLocalGo_eq (acc : List Package) (ms : List Toml) :
    parseLocalGo acc ms = acc ++ ms.filterMap localPackageOf := by
  induction ms generalizing acc with
  | nil => simp [parseLocalGo]
  | cons m ms ih =>
      cases hm : localPackageOf m with
      | none => simp [parseLocalGo, hm, ih]
      | some p => simp [parseLocalGo, hm, ih]

/-- C8: local-package discovery returns exactly the `{name, version}`
records of the manifests whose `package` table has both a string `name`
and a string `version`, one per qualifying manifest in input order
(`filterMap` over the manifest list); other manifests contribute
nothing, and discovery is a total function (no error). -/
theorem local_package_discovery (ms : List Toml) (m : Toml) (n v : String) :
    parse_local_crate_names ms = ms.filterMap localPackageOf ∧
    (localPackageOf m = some ⟨n, v⟩ ↔ ∃ pkg, m.get "package" = some pkg ∧
        pkg.get "name" = some (.str n) ∧ pkg.get "version" = some (.str v)) := by
  constructor
  · simpa using parseLocalGo_eq [] ms
  · cases hp : m.get "package" with
    | none => simp [localPackageOf, hp]
    | some pkg =>
        simp only [localPackageOf, hp, Option.some_inj]
        cases hn : pkg.get "name" with
        | none => simp [hn]
        | some x =>
            cases hv : pkg.get "version" with
            | none => cases x <;> simp [hn, hv]
            | some y => cases x <;> cases y <;> simp [hn, hv, Package.mk.injEq, eq_comm]

theorem local_package_discovery_witness :
    parse_local_crate_names [refsManifest] = [refsManifest].filterMap localPackageOf ∧
    (localPackageOf refsManifest = some ⟨"bar", "1.0.3"⟩ ↔ ∃ pkg,
        refsManifest.get "package" = some pkg ∧
        pkg.get "name" = some (.str "bar") ∧ pkg.get "version" = some (.str "1.0.3")) :=
  local_package_discovery [refsManifest] refsManifest "bar" "1.0.3"

/-- C9: a manifest dependency entry whose value is a plain string is
left completely unchanged by the dependency masker, even when its key
names a local package with a covering version; more generally any entry
without a `version` field is untouched, so only table-form entries
carrying a `version` key are candidates for masking. -/
theorem plain_string_dependencies_untouched (locals : List Package) (k s : String)
    (dep : Toml) (hnov : dep.get "version" = none) :
    maskDepEntry locals k (.str s) = some (.str s) ∧
    maskDepEntry locals k dep = some dep ∧
    maskDepEntry [⟨"foo", "1.0"⟩] "foo" (.str "1.0") = some (.str "1.0") := by
  refine ⟨?_, ?_, rfl⟩
  · simp [maskDepEntry, Toml.get]
  · simp [maskDepEntry, hnov]

theorem plain_string_dependencies_untouched_witness :
    maskDepEntry [⟨"foo", "1.0"⟩] "foo" (.str "1.0") = some (.str "1.0") ∧
    maskDepEntry [⟨"foo", "1.0"⟩] "foo" (.str "1.0") = some (.str "1.0") ∧
    maskDepEntry [⟨"foo", "1.0"⟩] "foo" (.str "1.0") = some (.str "1.0") :=
  plain_string_dependencies_untouched [⟨"foo", "1.0"⟩] "foo" "1.0" (.str "1.0") rfl

/-- C10: `workspace.package.version` is replaced with the placeholder
whenever the field is present, whatever the type of its current value,
while a manifest's own `package.version` is replaced only when its
current value is a string; a non-string `package.version` is left
unchanged. -/
theorem workspace_version_masked_unconditionally (ws pkg m p m2 p2 v w : Toml) (s : String)
    (h1 : ws.get "package" = some pkg) (h2 : pkg.get "version" = some v)
    (h3 : m.get "package" = some p) (h4 : p.get "version" = some (.str s))
    (h5 : m2.get "package" = some p2) (h6 : p2.get "version" = some w)
    (h7 : w.asStr = none) :
    getPath (maskWorkspacePkg ws) "package" "version" = some (.str CONST_VERSION) ∧
    getPath (mask_self_version m) "package" "version" = some (.str CONST_VERSION) ∧
    mask_self_version m2 = m2 := by
  refine ⟨?_, ?_, ?_⟩
  · have hset : (maskWorkspacePkg ws).get "package" =
        some (pkg.set "version" (Toml.str CONST_VERSION)) := by
      simp only [maskWorkspacePkg, h1]
      exact ws.get_set_self "package" pkg _ h1
    simp only [getPath, hset, Option.some_bind]
    exact pkg.get_set_self "version" v _ h2
  · have hset : (mask_self_version m).get "package" =
        some (p.set "version" (Toml.str CONST_VERSION)) := by
      simp only [mask_self_version, h3, h4]
      exact m.get_set_self "package" p _ h3
    simp only [getPath, hset, Option.some_bind]
    exact p.get_set_self "version" (.str s) _ h4
  · cases w with
    | str t => simp [Toml.asStr] at h7
    | int n => simp [mask_self_version, h5, h6]
    | boolean c => simp [mask_self_version, h5, h6]
    | array xs => simp [mask_self_version, h5, h6]
    | table kvs => simp [mask_self_version, h5, h6]

theorem workspace_version_masked_unconditionally_witness :
    getPath (maskWorkspacePkg (.table [("package", .table [("version", .int 3)])]))
      "package" "version" = some (.str CONST_VERSION) ∧
    getPath (mask_self_version
        (.table [("package", .table [("version", .str "2.4")])]))
      "package" "version" = some (.str CONST_VERSION) ∧
    mask_self_version (.table [("package", .table [("version", .int 3)])]) =
      .table [("package", .table [("version", .int 3)])] :=
  workspace_version_masked_unconditionally
    (.table [("package", .table [("version", .int 3)])])
    (.table [("version", .int 3)])
    (.table [("package", .table [("version", .str "2.4")])])
    (.table [("version", .str "2.4")])
    (.table [("package", .table [("version", .int 3)])])
    (.table [("version", .int 3)])
    (.int 3) (.int 3) "2.4" rfl rfl rfl rfl rfl rfl rfl

/-- C3 counterexample: the claim says every lock entry — not only
entries that themselves denote local packages — has dependency
references equal to `"N V"` rewritten.  Masking `refsLock` against a
manifest declaring the local package `bar 1.0.3` leaves the reference
string `"bar 1.0.3"` inside the non-local entry `foo` untouched (the
rewriting loop only runs on entries selected by the local filter),
while the `bar` entry itself is masked. -/
theorem lock_refs_not_rewritten_cex :
    mask_local_crate_versions [refsManifest] (some refsLock) =
      some ([refsManifestMasked], some refsLockMasked) ∧
    refsLockMasked.get "package" = some (.array [
      .table [("name", .str "foo"), ("version", .str "2.0.0"),
              ("dependencies", .array [.str "bar 1.0.3"])],
      .table [("name", .str "bar"), ("version", .str "0.0.1")]]) ∧
    lockDepStrings (parse_local_crate_names [refsManifest]) = ["bar 1.0.3"] ∧
    ("bar 1.0.3" : String) ≠ "bar" ++ " " ++ CONST_VERSION :=
  ⟨rfl, rfl, rfl, by decide⟩

/-- C3 (amended): only lock entries that themselves denote local
packages have their dependency-reference strings rewritten — an entry
the filter rejects is left entirely unchanged, references included.
Within a selected entry, a reference exactly equal to a local package's
`"name version"` string (name without spaces) is rewritten to
`"name 0.0.1"`, preserving the name token, and a reference equal to no
local `"name version"` string is left untouched. -/
theorem lock_refs_rewritten_only_in_local_entries (locals : List Package)
    (entry : Toml) (p : Package) (t : String)
    (hsel : isLocalEntry locals entry = some false)
    (hp : p ∈ locals) (hname : ' ' ∉ p.name.data)
    (ht : t ∉ lockDepStrings locals) :
    maskLockEntryStep locals entry = some entry ∧
    rewriteDep (lockDepStrings locals) (.str (p.name ++ " " ++ p.version)) =
      some (.str (p.name ++ " " ++ CONST_VERSION)) ∧
    rewriteDep (lockDepStrings locals) (.str t) = some (.str t) :=
  ⟨maskLockEntryStep_not_selected locals entry hsel,
   rewriteDep_local locals p hp hname,
   rewriteDep_not_mem _ t ht⟩

theorem lock_refs_rewritten_only_in_local_entries_witness :
    maskLockEntryStep [⟨"bar", "1.0.3"⟩]
      (.table [("name", .str "foo"), ("version", .str "2.0.0"),
               ("dependencies", .array [.str "bar 1.0.3"])]) =
      some (.table [("name", .str "foo"), ("version", .str "2.0.0"),
                    ("dependencies", .array [.str "bar 1.0.3"])]) ∧
    rewriteDep (lockDepStrings [⟨"bar", "1.0.3"⟩]) (.str ("bar" ++ " " ++ "1.0.3")) =
      some (.str ("bar" ++ " " ++ CONST_VERSION)) ∧
    rewriteDep (lockDepStrings [⟨"bar", "1.0.3"⟩]) (.str "bar 1.0.2") =
      some (.str "bar 1.0.2") :=
  lock_refs_rewritten_only_in_local_entries [⟨"bar", "1.0.3"⟩]
    (.table [("name", .str "foo"), ("version", .str "2.0.0"),
             ("dependencies", .array [.str "bar 1.0.3"])])
    ⟨"bar", "1.0.3"⟩ "bar 1.0.2" rfl (by simp) (by decide) (by decide)

/-- C5: masking never alters an occurrence naming a package absent from
the discovered local set — a manifest dependency entry whose effective
name matches no local package is returned unchanged, a lock entry whose
`name` matches no local package is returned unchanged, and a lock
dependency reference equal to no local `"name version"` string is
returned unchanged — and no field other than the targeted version
strings is modified: a dependency entry can change only at its
`version` key, and a lock entry only at its `version` and
`dependencies` keys. -/
theorem masking_non_interference (locals L L2 : List Package)
    (k key k2 k3 s : String) (dep entry d d2 e e2 : Toml)
    (hdep : ∀ p ∈ locals, (dep.get "package").getD (.str k) ≠ .str p.name)
    (hentry : ∀ p ∈ locals, entry.get "name" ≠ some (.str p.name))
    (hs : ∀ p ∈ locals, s ≠ p.name ++ " " ++ p.version)
    (hd : maskDepEntry L key d = some d2) (hk2 : k2 ≠ "version")
    (he : maskLockEntryStep L2 e = some e2)
    (hk3 : k3 ≠ "version") (hk3b : k3 ≠ "dependencies") :
    maskDepEntry locals k dep = some dep ∧
    maskLockEntryStep locals entry = some entry ∧
    rewriteDep (lockDepStrings locals) (.str s) = some (.str s) ∧
    d2.get k2 = d.get k2 ∧
    e2.get k3 = e.get k3 := by
  refine ⟨?_, ?_, ?_, ?_, ?_⟩
  · have hany := anyCovers_of_no_match locals ((dep.get "package").getD (.str k))
      ((dep.get "version").getD (.str "")) (by simpa using hdep)
    cases hv : dep.get "version" with
    | none => simp [maskDepEntry, hv]
    | some v =>
        have hany' := anyCovers_of_no_match locals ((dep.get "package").getD (.str k)) v
          (by simpa using hdep)
        simp [maskDepEntry, hv, hany']
  · apply maskLockEntryStep_not_selected
    cases hname : entry.get "name" with
    | none => simp [isLocalEntry, hname]
    | some name =>
        cases hver : entry.get "version" with
        | none => simp [isLocalEntry, hname, hver]
        | some version =>
            have : ∀ p ∈ locals, name ≠ .str p.name := by
              intro p hp hc
              exact hentry p hp (by rw [hname, hc])
            simp [isLocalEntry, hname, hver, anyCovers_of_no_match locals name version this]
  · apply rewriteDep_not_mem
    simp only [lockDepStrings, List.mem_map]
    rintro ⟨p, hp, hc⟩
    exact hs p hp hc.symm
  · cases hv : d.get "version" with
    | none =>
        simp only [maskDepEntry, hv, Option.some_inj] at hd
        rw [← hd]
    | some v =>
        simp only [maskDepEntry, hv] at hd
        cases hcov : anyCovers L ((d.get "package").getD (.str key)) v with
        | none => simp [hcov] at hd
        | some c =>
            cases c with
            | true =>
                simp only [hcov, Option.some_inj] at hd
                rw [← hd]
                exact d.get_set_other "version" k2 _ hk2
            | false =>
                simp only [hcov, Option.some_inj] at hd
                rw [← hd]
  · cases hsel : isLocalEntry L2 e with
    | none => simp [maskLockEntryStep, hsel] at he
    | some b =>
        cases b with
        | false =>
            have : e2 = e := by
              simpa [maskLockEntryStep, hsel] using he.symm
            rw [this]
        | true =>
            have hmask : maskLockEntry L2 e = some e2 := by
              simpa [maskLockEntryStep, hsel] using he
            have hset : ∀ k4, k4 ≠ "version" →
                (e.set "version" (Toml.str CONST_VERSION)).get k4 = e.get k4 :=
              fun k4 hk4 => e.get_set_other "version" k4 _ hk4
            cases hdeps : (e.set "version" (Toml.str CONST_VERSION)).get "dependencies" with
            | none =>
                simp only [maskLockEntry, hdeps, Option.some_inj] at hmask
                rw [← hmask]
                exact hset k3 hk3
            | some dv =>
                cases dv with
                | array deps =>
                    simp only [maskLockEntry, hdeps] at hmask
                    obtain ⟨ds, hds, rfl⟩ := Option.map_eq_some'.mp hmask
                    rw [Toml.get_set_other _ "dependencies" k3 _ hk3b]
                    exact hset k3 hk3
                | str s2 =>
                    simp only [maskLockEntry, hdeps, Option.some_inj] at hmask
                    rw [← hmask]; exact hset k3 hk3
                | int n2 =>
                    simp only [maskLockEntry, hdeps, Option.some_inj] at hmask
                    rw [← hmask]; exact hset k3 hk3
                | boolean c2 =>
                    simp only [maskLockEntry, hdeps, Option.some_inj] at hmask
                    rw [← hmask]; exact hset k3 hk3
                | table kvs2 =>
                    simp only [maskLockEntry, hdeps, Option.some_inj] at hmask
                    rw [← hmask]; exact hset k3 hk3

theorem masking_non_interference_witness :
    maskDepEntry [⟨"bar", "1.0"⟩] "x" (.table [("version", .str "1.0")]) =
      some (.table [("version", .str "1.0")]) ∧
    maskLockEntryStep [⟨"bar", "1.0"⟩] (.table [("name", .str "other")]) =
      some (.table [("name", .str "other")]) ∧
    rewriteDep (lockDepStrings [⟨"bar", "1.0"⟩]) (.str "zzz") = some (.str "zzz") ∧
    (Toml.table [("version", .str "0.0.1")]).get "package" =
      (Toml.table [("version", .str "1.2")]).get "package" ∧
    (Toml.table [("name", .str "bar"), ("version", .str "0.0.1")]).get "name" =
      (Toml.table [("name", .str "bar"), ("version", .str "1.5")]).get "name" :=
  masking_non_interference [⟨"bar", "1.0"⟩] [⟨"bar", "1.0"⟩] [⟨"bar", "1.0"⟩]
    "x" "bar" "package" "name" "zzz"
    (.table [("version", .str "1.0")]) (.table [("name", .str "other")])
    (.table [("version", .str "1.2")]) (.table [("version", .str "0.0.1")])
    (.table [("name", .str "bar"), ("version", .str "1.5")])
    (.table [("name", .str "bar"), ("version", .str "0.0.1")])
    (by simp [Toml.get, lookupKV]) (by simp [Toml.get, lookupKV])
    (by simp) rfl (by decide) rfl (by decide) (by decide)

/-- C4 counterexample: running the full masking operation twice is not
the same as running it once.  `idemManifest` declares the local package
`bar 1.0` and a dependency on `bar` with requirement `0.0.5`.  The
first run masks only the self version (`covers "1.0" "0.0.5" = false`);
the second run rediscovers `bar` at the placeholder `0.0.1`, and since
`covers "0.0.1" "0.0.5" = true` it also masks the dependency
requirement, producing a different document. -/
theorem masking_not_idempotent_cex :
    mask_local_crate_versions [idemManifest] none = some ([idemManifest1], none) ∧
    mask_local_crate_versions [idemManifest1] none = some ([idemManifest2], none) ∧
    idemManifest2 ≠ idemManifest1 :=
  ⟨rfl, rfl, by simp [idemManifest1, idemManifest2]⟩

/-! ### Idempotence of the maskers at a fixed local-package set -/

theorem splitOnceChar_fst_not_mem (c : Char) (l : List Char) :
    ∀ a b, splitOnceChar c l = some (a, b) → c ∉ a := by
  induction l with
  | nil => intro a b h; simp [splitOnceChar] at h
  | cons x xs ih =>
      intro a b h
      by_cases hx : x = c
      · simp [splitOnceChar, hx] at h
        rw [h.1]
        simp
      · simp only [splitOnceChar, hx, if_false] at h
        obtain ⟨⟨a2, b2⟩, hs, heq⟩ := Option.map_eq_some'.mp h
        obtain ⟨ha, hb⟩ := Prod.mk.injEq _ _ _ _ ▸ heq
        rw [← ha]
        intro hmem
        simp only [List.mem_cons] at hmem
        rcases hmem with rfl | hmem
        · exact hx rfl
        · exact ih a2 b2 hs hmem

theorem anyCovers_const_isSome (locals : List Package) (name : Toml)
    (hv : ∀ p ∈ locals, (parseMajorMinor p.version).isSome) :
    (anyCovers locals name (.str CONST_VERSION)).isSome :=
  anyCovers_isSome locals name CONST_VERSION hv (Or.inr (by decide))

theorem maskDepEntry_idem (locals : List Package) (k : String) (dep dep' : Toml)
    (hv : ∀ p ∈ locals, (parseMajorMinor p.version).isSome)
    (h : maskDepEntry locals k dep = some dep') :
    maskDepEntry locals k dep' = some dep' := by
  cases hver : dep.get "version" with
  | none =>
      simp only [maskDepEntry, hver, Option.some_inj] at h
      rw [← h]
      simp [maskDepEntry, hver]
  | some v =>
      simp only [maskDepEntry, hver] at h
      cases hcov : anyCovers locals ((dep.get "package").getD (.str k)) v with
      | none => rw [hcov] at h; simp at h
      | some c =>
          cases c with
          | false =>
              rw [hcov] at h
              simp only [Option.some_inj] at h
              rw [← h]
              simp [maskDepEntry, hver, hcov]
          | true =>
              rw [hcov] at h
              simp only [Option.some_inj] at h
              subst h
              have hpkg : (dep.set "version" (Toml.str CONST_VERSION)).get "package" =
                  dep.get "package" :=
                dep.get_set_other "version" "package" _ (by decide)
              have hver' : (dep.set "version" (Toml.str CONST_VERSION)).get "version" =
                  some (.str CONST_VERSION) := dep.get_set_self "version" v _ hver
              have hsome := anyCovers_const_isSome locals
                ((dep.get "package").getD (.str k)) hv
              rw [Option.isSome_iff_exists] at hsome
              obtain ⟨c2, hc2⟩ := hsome
              cases c2 with
              | false => simp [maskDepEntry, hver', hpkg, hc2]
              | true =>
                  simp only [maskDepEntry, hver', hpkg, hc2, Option.some_inj]
                  exact Toml.set_same _ "version" _ hver'

theorem maskDepsTable_idem (locals : List Package)
    (hv : ∀ p ∈ locals, (parseMajorMinor p.version).isSome) :
    ∀ kvs kvs', maskDepsTable locals kvs = some kvs' →
      maskDepsTable locals kvs' = some kvs' := by
  intro kvs
  induction kvs with
  | nil =>
      intro kvs' h
      simp only [maskDepsTable, Option.some_inj] at h
      rw [← h]
      rfl
  | cons kv rest ih =>
      intro kvs' h
      obtain ⟨k, dep⟩ := kv
      simp only [maskDepsTable, Option.bind_eq_bind] at h
      cases hd : maskDepEntry locals k dep with
      | none => rw [hd] at h; simp at h
      | some dep' =>
          rw [hd] at h
          simp only [Option.some_bind] at h
          cases hr : maskDepsTable locals rest with
          | none => rw [hr] at h; simp at h
          | some rest' =>
              rw [hr] at h
              simp only [Option.some_bind, Option.pure_def, Option.some_inj] at h
              rw [← h]
              have h1 := maskDepEntry_idem locals k dep dep' hv hd
              have h2 := ih rest' hr
              simp [maskDepsTable, h1, h2]

theorem maskOneSection_get_other (locals : List Package) (key k2 : String) (tv tv' : Toml)
    (h : maskOneSection locals key tv = some tv') (hk : k2 ≠ key) :
    tv'.get k2 = tv.get k2 := by
  cases hg : tv.get key with
  | none =>
      simp only [maskOneSection, hg, Option.some_inj] at h
      rw [← h]
  | some v =>
      cases v with
      | table deps =>
          simp only [maskOneSection, hg] at h
          obtain ⟨ds, hds, rfl⟩ := Option.map_eq_some'.mp h
          exact tv.get_set_other key k2 _ hk
      | str s =>
          simp only [maskOneSection, hg, Option.some_inj] at h
          rw [← h]
      | int n =>
          simp only [maskOneSection, hg, Option.some_inj] at h
          rw [← h]
      | boolean c =>
          simp only [maskOneSection, hg, Option.some_inj] at h
          rw [← h]
      | array xs =>
          simp only [maskOneSection, hg, Option.some_inj] at h
          rw [← h]

theorem maskOneSection_idem (locals : List Package) (key : String) (tv tv' : Toml)
    (hv : ∀ p ∈ locals, (parseMajorMinor p.version).isSome)
    (h : maskOneSection locals key tv = some tv') :
    maskOneSection locals key tv' = some tv' := by
  cases hg : tv.get key with
  | none =>
      simp only [maskOneSection, hg, Option.some_inj] at h
      rw [← h]
      simp [maskOneSection, hg]
  | some v =>
      cases v with
      | table deps =>
          simp only [maskOneSection, hg] at h
          obtain ⟨ds, hds, rfl⟩ := Option.map_eq_some'.mp h
          have hget : (tv.set key (.table ds)).get key = some (.table ds) :=
            tv.get_set_self key (.table deps) _ hg
          have hds2 := maskDepsTable_idem locals hv deps ds hds
          simp only [maskOneSection, hget, hds2, Option.map_some', Option.some_inj]
          exact Toml.set_same _ key _ hget
      | str s =>
          simp only [maskOneSection, hg, Option.some_inj] at h
          rw [← h]
          simp [maskOneSection, hg]
      | int n =>
          simp only [maskOneSection, hg, Option.some_inj] at h
          rw [← h]
          simp [maskOneSection, hg]
      | boolean c =>
          simp only [maskOneSection, hg, Option.some_inj] at h
          rw [← h]
          simp [maskOneSection, hg]
      | array xs =>
          simp only [maskOneSection, hg, Option.some_inj] at h
          rw [← h]
          simp [maskOneSection, hg]

theorem maskOneSection_fixed (locals : List Package) (key : String) (tv tv0 : Toml)
    (hv : ∀ p ∈ locals, (parseMajorMinor p.version).isSome)
    (h0 : maskOneSection locals key tv0 = some tv0)
    (hg : tv.get key = tv0.get key) :
    maskOneSection locals key tv = some tv := by
  cases hg0 : tv0.get key with
  | none =>
      rw [hg0] at hg
      simp [maskOneSection, hg]
  | some v =>
      cases v with
      | table deps =>
          rw [hg0] at hg
          simp only [maskOneSection, hg0] at h0
          obtain ⟨ds, hds, hset⟩ := Option.map_eq_some'.mp h0
          have hget : (tv0.set key (.table ds)).get key = some (.table ds) :=
            tv0.get_set_self key (.table deps) _ hg0
          rw [hset, hg0] at hget
          have hdeq : deps = ds := by simpa using Option.some_inj.mp hget
          rw [← hdeq] at hds
          simp only [maskOneSection, hg, hds, Option.map_some', Option.some_inj]
          exact Toml.set_same tv key _ hg
      | str s =>
          rw [hg0] at hg
          simp [maskOneSection, hg]
      | int n =>
          rw [hg0] at hg
          simp [maskOneSection, hg]
      | boolean c =>
          rw [hg0] at hg
          simp [maskOneSection, hg]
      | array xs =>
          rw [hg0] at hg
          simp [maskOneSection, hg]

theorem maskDependencyTables_decomp (locals : List Package) (tv tv3 : Toml)
    (h : maskDependencyTables locals tv = some tv3) :
    ∃ tv1 tv2, maskOneSection locals "dependencies" tv = some tv1 ∧
      maskOneSection locals "dev-dependencies" tv1 = some tv2 ∧
      maskOneSection locals "build-dependencies" tv2 = some tv3 := by
  simp only [maskDependencyTables, Option.bind_eq_bind] at h
  cases h1 : maskOneSection locals "dependencies" tv with
  | none => rw [h1] at h; simp at h
  | some tv1 =>
      rw [h1] at h
      simp only [Option.some_bind] at h
      cases h2 : maskOneSection locals "dev-dependencies" tv1 with
      | none => rw [h2] at h; simp at h
      | some tv2 =>
          rw [h2] at h
          simp only [Option.some_bind] at h
          exact ⟨tv1, tv2, rfl, h2, h⟩

theorem maskDependencyTables_comp (locals : List Package) (tv a b c : Toml)
    (h1 : maskOneSection locals "dependencies" tv = some a)
    (h2 : maskOneSection locals "dev-dependencies" a = some b)
    (h3 : maskOneSection locals "build-dependencies" b = some c) :
    maskDependencyTables locals tv = some c := by
  simp [maskDependencyTables, h1, h2, h3]

theorem maskDependencyTables_get_other (locals : List Package) (tv tv3 : Toml) (k2 : String)
    (h : maskDependencyTables locals tv = some tv3)
    (hk1 : k2 ≠ "dependencies") (hk2 : k2 ≠ "dev-dependencies")
    (hk3 : k2 ≠ "build-dependencies") :
    tv3.get k2 = tv.get k2 := by
  obtain ⟨tv1, tv2, h1, h2, h3⟩ := maskDependencyTables_decomp locals tv tv3 h
  rw [maskOneSection_get_other locals _ k2 tv2 tv3 h3 hk3,
      maskOneSection_get_other locals _ k2 tv1 tv2 h2 hk2,
      maskOneSection_get_other locals _ k2 tv tv1 h1 hk1]

theorem maskDependencyTables_idem (locals : List Package) (tv tv3 : Toml)
    (hv : ∀ p ∈ locals, (parseMajorMinor p.version).isSome)
    (h : maskDependencyTables locals tv = some tv3) :
    maskDependencyTables locals tv3 = some tv3 := by
  obtain ⟨tv1, tv2, h1, h2, h3⟩ := maskDependencyTables_decomp locals tv tv3 h
  have f1 : maskOneSection locals "dependencies" tv3 = some tv3 := by
    apply maskOneSection_fixed locals _ tv3 tv1 hv
      (maskOneSection_idem locals _ tv tv1 hv h1)
    rw [maskOneSection_get_other locals _ "dependencies" tv2 tv3 h3 (by decide),
        maskOneSection_get_other locals _ "dependencies" tv1 tv2 h2 (by decide)]
  have f2 : maskOneSection locals "dev-dependencies" tv3 = some tv3 := by
    apply maskOneSection_fixed locals _ tv3 tv2 hv
      (maskOneSection_idem locals _ tv1 tv2 hv h2)
    rw [maskOneSection_get_other locals _ "dev-dependencies" tv2 tv3 h3 (by decide)]
  have f3 : maskOneSection locals "build-dependencies" tv3 = some tv3 :=
    maskOneSection_idem locals _ tv2 tv3 hv h3
  exact maskDependencyTables_comp locals tv3 tv3 tv3 tv3 f1 f2 f3

theorem maskDependencyTables_fixed (locals : List Package) (tv tv0 : Toml)
    (hv : ∀ p ∈ locals, (parseMajorMinor p.version).isSome)
    (h0 : maskDependencyTables locals tv0 = some tv0)
    (hg1 : tv.get "dependencies" = tv0.get "dependencies")
    (hg2 : tv.get "dev-dependencies" = tv0.get "dev-dependencies")
    (hg3 : tv.get "build-dependencies" = tv0.get "build-dependencies") :
    maskDependencyTables locals tv = some tv := by
  obtain ⟨u1, u2, h1, h2, h3⟩ := maskDependencyTables_decomp locals tv0 tv0 h0
  have f1 : maskOneSection locals "dependencies" tv = some tv := by
    apply maskOneSection_fixed locals _ tv u1 hv
      (maskOneSection_idem locals _ tv0 u1 hv h1)
    rw [hg1, maskOneSection_get_other locals _ "dependencies" u2 tv0 h3 (by decide),
        maskOneSection_get_other locals _ "dependencies" u1 u2 h2 (by decide)]
  have f2 : maskOneSection locals "dev-dependencies" tv = some tv := by
    apply maskOneSection_fixed locals _ tv u2 hv
      (maskOneSection_idem locals _ u1 u2 hv h2)
    rw [hg2, maskOneSection_get_other locals _ "dev-dependencies" u2 tv0 h3 (by decide)]
  have f3 : maskOneSection locals "build-dependencies" tv = some tv := by
    apply maskOneSection_fixed locals _ tv tv0 hv
      (maskOneSection_idem locals _ u2 tv0 hv h3)
    exact hg3
  exact maskDependencyTables_comp locals tv tv tv tv f1 f2 f3

theorem maskTargets_idem (locals : List Package)
    (hv : ∀ p ∈ locals, (parseMajorMinor p.version).isSome) :
    ∀ kvs kvs', maskTargets locals kvs = some kvs' →
      maskTargets locals kvs' = some kvs' := by
  intro kvs
  induction kvs with
  | nil =>
      intro kvs' h
      simp only [maskTargets, Option.some_inj] at h
      rw [← h]
      rfl
  | cons kv rest ih =>
      intro kvs' h
      obtain ⟨k, cfg⟩ := kv
      simp only [maskTargets, Option.bind_eq_bind] at h
      cases hd : maskDependencyTables locals cfg with
      | none => rw [hd] at h; simp at h
      | some cfg' =>
          rw [hd] at h
          simp only [Option.some_bind] at h
          cases hr : maskTargets locals rest with
          | none => rw [hr] at h; simp at h
          | some rest' =>
              rw [hr] at h
              simp only [Option.some_bind, Option.pure_def, Option.some_inj] at h
              rw [← h]
              have g1 := maskDependencyTables_idem locals cfg cfg' hv hd
              have g2 := ih rest' hr
              simp [maskTargets, g1, g2]

theorem maskTargetSection_get_other (locals : List Package) (k2 : String) (m m' : Toml)
    (h : maskTargetSection locals m = some m') (hk : k2 ≠ "target") :
    m'.get k2 = m.get k2 := by
  cases hg : m.get "target" with
  | none =>
      simp only [maskTargetSection, hg, Option.some_inj] at h
      rw [← h]
  | some v =>
      cases v with
      | table ts =>
          simp only [maskTargetSection, hg] at h
          obtain ⟨ds, hds, rfl⟩ := Option.map_eq_some'.mp h
          exact m.get_set_other "target" k2 _ hk
      | str s =>
          simp only [maskTargetSection, hg, Option.some_inj] at h
          rw [← h]
      | int n =>
          simp only [maskTargetSection, hg, Option.some_inj] at h
          rw [← h]
      | boolean c =>
          simp only [maskTargetSection, hg, Option.some_inj] at h
          rw [← h]
      | array xs =>
          simp only [maskTargetSection, hg, Option.some_inj] at h
          rw [← h]

theorem maskTargetSection_idem (locals : List Package) (m m' : Toml)
    (hv : ∀ p ∈ locals, (parseMajorMinor p.version).isSome)
    (h : maskTargetSection locals m = some m') :
    maskTargetSection locals m' = some m' := by
  cases hg : m.get "target" with
  | none =>
      simp only [maskTargetSection, hg, Option.some_inj] at h
      rw [← h]
      simp [maskTargetSection, hg]
  | some v =>
      cases v with
      | table ts =>
          simp only [maskTargetSection, hg] at h
          obtain ⟨ds, hds, rfl⟩ := Option.map_eq_some'.mp h
          have hget : (m.set "target" (.table ds)).get "target" = some (.table ds) :=
            m.get_set_self "target" (.table ts) _ hg
          have hds2 := maskTargets_idem locals hv ts ds hds
          simp only [maskTargetSection, hget, hds2, Option.map_some', Option.some_inj]
          exact Toml.set_same _ "target" _ hget
      | str s =>
          simp only [maskTargetSection, hg, Option.some_inj] at h
          rw [← h]
          simp [maskTargetSection, hg]
      | int n =>
          simp only [maskTargetSection, hg, Option.some_inj] at h
          rw [← h]
          simp [maskTargetSection, hg]
      | boolean c =>
          simp only [maskTargetSection, hg, Option.some_inj] at h
          rw [← h]
          simp [maskTargetSection, hg]
      | array xs =>
          simp only [maskTargetSection, hg, Option.some_inj] at h
          rw [← h]
          simp [maskTargetSection, hg]

theorem maskTargetSection_fixed (locals : List Package) (m m0 : Toml)
    (hv : ∀ p ∈ locals, (parseMajorMinor p.version).isSome)
    (h0 : maskTargetSection locals m0 = some m0)
    (hg : m.get "target" = m0.get "target") :
    maskTargetSection locals m = some m := by
  cases hg0 : m0.get "target" with
  | none =>
      rw [hg0] at hg
      simp [maskTargetSection, hg]
  | some v =>
      cases v with
      | table ts =>
          rw [hg0] at hg
          simp only [maskTargetSection, hg0] at h0
          obtain ⟨ds, hds, hset⟩ := Option.map_eq_some'.mp h0
          have hget : (m0.set "target" (.table ds)).get "target" = some (.table ds) :=
            m0.get_set_self "target" (.table ts) _ hg0
          rw [hset, hg0] at hget
          have hdeq : ts = ds := by simpa using Option.some_inj.mp hget
          rw [← hdeq] at hds
          simp only [maskTargetSection, hg, hds, Option.map_some', Option.some_inj]
          exact Toml.set_same m "target" _ hg
      | str s =>
          rw [hg0] at hg
          simp [maskTargetSection, hg]
      | int n =>
          rw [hg0] at hg
          simp [maskTargetSection, hg]
      | boolean c =>
          rw [hg0] at hg
          simp [maskTargetSection, hg]
      | array xs =>
          rw [hg0] at hg
          simp [maskTargetSection, hg]

theorem maskWorkspacePkg_stable (ws pkg : Toml)
    (hg : ws.get "package" = some pkg) :
    maskWorkspacePkg (ws.set "package" (pkg.set "version" (Toml.str CONST_VERSION))) =
      ws.set "package" (pkg.set "version" (Toml.str CONST_VERSION)) := by
  have hget : (ws.set "package" (pkg.set "version" (Toml.str CONST_VERSION))).get "package" =
      some (pkg.set "version" (Toml.str CONST_VERSION)) :=
    ws.get_set_self "package" pkg _ hg
  simp only [maskWorkspacePkg, hget]
  cases hv : pkg.get "version" with
  | none =>
      have h1 : pkg.set "version" (Toml.str CONST_VERSION) = pkg :=
        pkg.set_absent "version" _ hv
      rw [h1]
      rw [h1] at hget
      rw [pkg.set_absent "version" _ hv]
      exact Toml.set_same _ "package" pkg hget
  | some v =>
      have h1 : (pkg.set "version" (Toml.str CONST_VERSION)).get "version" =
          some (Toml.str CONST_VERSION) := pkg.get_set_self "version" v _ hv
      rw [Toml.set_same _ "version" _ h1]
      exact Toml.set_same _ "package" _ hget

theorem maskWorkspaceSection_get_other (locals : List Package) (k2 : String) (m m' : Toml)
    (h : maskWorkspaceSection locals m = some m') (hk : k2 ≠ "workspace") :
    m'.get k2 = m.get k2 := by
  cases hg : m.get "workspace" with
  | none =>
      simp only [maskWorkspaceSection, hg, Option.some_inj] at h
      rw [← h]
  | some ws =>
      simp only [maskWorkspaceSection, hg] at h
      obtain ⟨w, hw, rfl⟩ := Option.map_eq_some'.mp h
      exact m.get_set_other "workspace" k2 _ hk

theorem maskWorkspaceSection_idem (locals : List Package) (m m' : Toml)
    (hv : ∀ p ∈ locals, (parseMajorMinor p.version).isSome)
    (h : maskWorkspaceSection locals m = some m') :
    maskWorkspaceSection locals m' = some m' := by
  cases hg : m.get "workspace" with
  | none =>
      simp only [maskWorkspaceSection, hg, Option.some_inj] at h
      rw [← h]
      simp [maskWorkspaceSection, hg]
  | some ws =>
      simp only [maskWorkspaceSection, hg] at h
      obtain ⟨w, hw, rfl⟩ := Option.map_eq_some'.mp h
      have hget : (m.set "workspace" w).get "workspace" = some w :=
        m.get_set_self "workspace" ws _ hg
      have hwpkg : maskWorkspacePkg w = w := by
        cases hp : ws.get "package" with
        | none =>
            have : maskWorkspacePkg ws = ws := by simp [maskWorkspacePkg, hp]
            rw [this] at hw
            have hpw : w.get "package" = ws.get "package" := by
              rw [maskDependencyTables_get_other locals ws w "package" hw
                (by decide) (by decide) (by decide)]
            simp [maskWorkspacePkg, hpw, hp]
        | some pkg =>
            have hwp : maskWorkspacePkg ws =
                ws.set "package" (pkg.set "version" (Toml.str CONST_VERSION)) := by
              simp [maskWorkspacePkg, hp]
            rw [hwp] at hw
            have hpw : w.get "package" =
                some (pkg.set "version" (Toml.str CONST_VERSION)) := by
              rw [maskDependencyTables_get_other locals _ w "package" hw
                (by decide) (by decide) (by decide)]
              exact ws.get_set_self "package" pkg _ hp
            simp only [maskWorkspacePkg, hpw]
            cases hpv : pkg.get "version" with
            | none =>
                have h1 : pkg.set "version" (Toml.str CONST_VERSION) = pkg :=
                  pkg.set_absent "version" _ hpv
                rw [h1] at hpw
                rw [h1, pkg.set_absent "version" _ hpv]
                exact Toml.set_same w "package" pkg hpw
            | some v =>
                have h1 : (pkg.set "version" (Toml.str CONST_VERSION)).get "version" =
                    some (Toml.str CONST_VERSION) := pkg.get_set_self "version" v _ hpv
                rw [Toml.set_same _ "version" _ h1]
                exact Toml.set_same w "package" _ hpw
      have hmdt : maskDependencyTables locals w = some w := by
        apply maskDependencyTables_idem locals (maskWorkspacePkg ws) w hv hw
      have hget2 : (m.set "workspace" w).get "workspace" = some w := hget
      simp only [maskWorkspaceSection, hget2, hwpkg, hmdt, Option.map_some', Option.some_inj]
      exact Toml.set_same _ "workspace" w hget2

theorem mask_local_dependency_versions_decomp (locals : List Package) (m m3 : Toml)
    (h : mask_local_dependency_versions locals m = some m3) :
    ∃ m1 m2, maskDependencyTables locals m = some m1 ∧
      maskTargetSection locals m1 = some m2 ∧
      maskWorkspaceSection locals m2 = some m3 := by
  simp only [mask_local_dependency_versions, Option.bind_eq_bind] at h
  cases h1 : maskDependencyTables locals m with
  | none => rw [h1] at h; simp at h
  | some m1 =>
      rw [h1] at h
      simp only [Option.some_bind] at h
      cases h2 : maskTargetSection locals m1 with
      | none => rw [h2] at h; simp at h
      | some m2 =>
          rw [h2] at h
          simp only [Option.some_bind] at h
          exact ⟨m1, m2, rfl, h2, h⟩

theorem mask_local_dependency_versions_comp (locals : List Package) (m a b c : Toml)
    (h1 : maskDependencyTables locals m = some a)
    (h2 : maskTargetSection locals a = some b)
    (h3 : maskWorkspaceSection locals b = some c) :
    mask_local_dependency_versions locals m = some c := by
  simp [mask_local_dependency_versions, h1, h2, h3]

theorem mask_local_dependency_versions_get_other (locals : List Package) (m m3 : Toml)
    (k2 : String) (h : mask_local_dependency_versions locals m = some m3)
    (hk1 : k2 ≠ "dependencies") (hk2 : k2 ≠ "dev-dependencies")
    (hk3 : k2 ≠ "build-dependencies") (hk4 : k2 ≠ "target") (hk5 : k2 ≠ "workspace") :
    m3.get k2 = m.get k2 := by
  obtain ⟨m1, m2, h1, h2, h3⟩ := mask_local_dependency_versions_decomp locals m m3 h
  rw [maskWorkspaceSection_get_other locals k2 m2 m3 h3 hk5,
      maskTargetSection_get_other locals k2 m1 m2 h2 hk4,
      maskDependencyTables_get_other locals m m1 k2 h1 hk1 hk2 hk3]

theorem mask_local_dependency_versions_idem (locals : List Package) (m m3 : Toml)
    (hv : ∀ p ∈ locals, (parseMajorMinor p.version).isSome)
    (h : mask_local_dependency_versions locals m = some m3) :
    mask_local_dependency_versions locals m3 = some m3 := by
  obtain ⟨m1, m2, h1, h2, h3⟩ := mask_local_dependency_versions_decomp locals m m3 h
  have f1 : maskDependencyTables locals m3 = some m3 := by
    apply maskDependencyTables_fixed locals m3 m1 hv
      (maskDependencyTables_idem locals m m1 hv h1)
    · rw [maskWorkspaceSection_get_other locals _ m2 m3 h3 (by decide),
          maskTargetSection_get_other locals _ m1 m2 h2 (by decide)]
    · rw [maskWorkspaceSection_get_other locals _ m2 m3 h3 (by decide),
          maskTargetSection_get_other locals _ m1 m2 h2 (by decide)]
    · rw [maskWorkspaceSection_get_other locals _ m2 m3 h3 (by decide),
          maskTargetSection_get_other locals _ m1 m2 h2 (by decide)]
  have f2 : maskTargetSection locals m3 = some m3 := by
    apply maskTargetSection_fixed locals m3 m2 hv
      (maskTargetSection_idem locals m1 m2 hv h2)
    rw [maskWorkspaceSection_get_other locals _ m2 m3 h3 (by decide)]
  have f3 : maskWorkspaceSection locals m3 = some m3 :=
    maskWorkspaceSection_idem locals m2 m3 hv h3
  exact mask_local_dependency_versions_comp locals m3 m3 m3 m3 f1 f2 f3

theorem mask_self_version_stable (locals : List Package) (m m' : Toml)
    (h : mask_local_dependency_versions locals (mask_self_version m) = some m') :
    mask_self_version m' = m' := by
  have hpres : m'.get "package" = (mask_self_version m).get "package" :=
    mask_local_dependency_versions_get_other locals _ m' "package" h
      (by decide) (by decide) (by decide) (by decide) (by decide)
  cases hp : m.get "package" with
  | none =>
      have hm0 : mask_self_version m = m := by simp [mask_self_version, hp]
      rw [hm0] at hpres
      have hp' : m'.get "package" = none := hpres.trans hp
      simp [mask_self_version, hp']
  | some pkg =>
      cases hpv : pkg.get "version" with
      | none =>
          have hm0 : mask_self_version m = m := by simp [mask_self_version, hp, hpv]
          rw [hm0] at hpres
          rw [hp] at hpres
          simp [mask_self_version, hpres, hpv]
      | some v =>
          cases v with
          | str s =>
              have hm0 : mask_self_version m =
                  m.set "package" (pkg.set "version" (Toml.str CONST_VERSION)) := by
                simp [mask_self_version, hp, hpv]
              rw [hm0] at hpres
              rw [m.get_set_self "package" pkg _ hp] at hpres
              have hpv' : (pkg.set "version" (Toml.str CONST_VERSION)).get "version" =
                  some (Toml.str CONST_VERSION) := pkg.get_set_self "version" _ _ hpv
              simp only [mask_self_version, hpres, hpv']
              rw [Toml.set_same _ "version" _ hpv']
              exact Toml.set_same m' "package" _ hpres
          | int n =>
              have hm0 : mask_self_version m = m := by simp [mask_self_version, hp, hpv]
              rw [hm0] at hpres
              rw [hp] at hpres
              simp [mask_self_version, hpres, hpv]
          | boolean c =>
              have hm0 : mask_self_version m = m := by simp [mask_self_version, hp, hpv]
              rw [hm0] at hpres
              rw [hp] at hpres
              simp [mask_self_version, hpres, hpv]
          | array xs =>
              have hm0 : mask_self_version m = m := by simp [mask_self_version, hp, hpv]
              rw [hm0] at hpres
              rw [hp] at hpres
              simp [mask_self_version, hpres, hpv]
          | table kvs =>
              have hm0 : mask_self_version m = m := by simp [mask_self_version, hp, hpv]
              rw [hm0] at hpres
              rw [hp] at hpres
              simp [mask_self_version, hpres, hpv]

theorem mask_manifests_idem (locals : List Package)
    (hv : ∀ p ∈ locals, (parseMajorMinor p.version).isSome) :
    ∀ ms ms', mask_local_versions_in_manifests locals ms = some ms' →
      mask_local_versions_in_manifests locals ms' = some ms' := by
  intro ms
  induction ms with
  | nil =>
      intro ms' h
      simp only [mask_local_versions_in_manifests, Option.some_inj] at h
      rw [← h]
      rfl
  | cons m rest ih =>
      intro ms' h
      simp only [mask_local_versions_in_manifests, Option.bind_eq_bind] at h
      cases hm : mask_local_dependency_versions locals (mask_self_version m) with
      | none => rw [hm] at h; simp at h
      | some m' =>
          rw [hm] at h
          simp only [Option.some_bind] at h
          cases hr : mask_local_versions_in_manifests locals rest with
          | none => rw [hr] at h; simp at h
          | some rest' =>
              rw [hr] at h
              simp only [Option.some_bind, Option.pure_def, Option.some_inj] at h
              rw [← h]
              have hstab := mask_self_version_stable locals m m' hm
              have hidem := mask_local_dependency_versions_idem locals _ m' hv hm
              have g2 := ih rest' hr
              simp [mask_local_versions_in_manifests, hstab, hidem, g2]

theorem rewriteDep_idem (ds : List String) (d d' : Toml)
    (h : rewriteDep ds d = some d') : rewriteDep ds d' = some d' := by
  cases d with
  | str s =>
      by_cases hmem : s ∈ ds
      · simp only [rewriteDep, hmem, if_true] at h
        obtain ⟨⟨t, r⟩, hs, rfl⟩ := Option.map_eq_some'.mp h
        have hns : ' ' ∉ t.data := by
          simp only [splitOnceSpace] at hs
          obtain ⟨⟨a, b⟩, hsc, heq⟩ := Option.map_eq_some'.mp hs
          have ht : t = ⟨a⟩ := (congrArg Prod.fst heq).symm
          rw [ht]
          exact splitOnceChar_fst_not_mem ' ' s.data a b hsc
        have hsp : (" " : String).data = [' '] := rfl
        have hdata : (t ++ " " ++ CONST_VERSION).data =
            t.data ++ ' ' :: CONST_VERSION.data := by
          rw [String.data_append, String.data_append, hsp]
          simp
        have hsplit2 : splitOnceSpace (t ++ " " ++ CONST_VERSION) =
            some (t, CONST_VERSION) := by
          simp only [splitOnceSpace, hdata,
            splitOnceChar_append ' ' t.data CONST_VERSION.data hns]
          rfl
        by_cases h2 : (t ++ " " ++ CONST_VERSION) ∈ ds
        · simp [rewriteDep, h2, hsplit2]
        · simp [rewriteDep, h2]
      · simp only [rewriteDep, hmem, if_false, Option.some_inj] at h
        rw [← h]
        simp [rewriteDep, hmem]
  | int n => simp [rewriteDep] at h
  | boolean c => simp [rewriteDep] at h
  | array xs => simp [rewriteDep] at h
  | table kvs => simp [rewriteDep] at h

theorem rewriteDeps_idem (ds : List String) :
    ∀ l l', rewriteDeps ds l = some l' → rewriteDeps ds l' = some l' := by
  intro l
  induction l with
  | nil =>
      intro l' h
      simp only [rewriteDeps, Option.some_inj] at h
      rw [← h]
      rfl
  | cons d rest ih =>
      intro l' h
      simp only [rewriteDeps, Option.bind_eq_bind] at h
      cases hd : rewriteDep ds d with
      | none => rw [hd] at h; simp at h
      | some d' =>
          rw [hd] at h
          simp only [Option.some_bind] at h
          cases hr : rewriteDeps ds rest with
          | none => rw [hr] at h; simp at h
          | some rest' =>
              rw [hr] at h
              simp only [Option.some_bind, Option.pure_def, Option.some_inj] at h
              rw [← h]
              have g1 := rewriteDep_idem ds d d' hd
              have g2 := ih rest' hr
              simp [rewriteDeps, g1, g2]

theorem maskLockEntry_of_fixed (locals : List Package) (e' : Toml)
    (hvc : e'.get "version" = some (.str CONST_VERSION))
    (hd : ∀ ds, e'.get "dependencies" = some (.array ds) →
        rewriteDeps (lockDepStrings locals) ds = some ds) :
    maskLockEntry locals e' = some e' := by
  have hset' : e'.set "version" (Toml.str CONST_VERSION) = e' :=
    Toml.set_same _ _ _ hvc
  simp only [maskLockEntry, hset']
  cases hdd : e'.get "dependencies" with
  | none => rfl
  | some dv =>
      cases dv with
      | array ds => simp [hd ds hdd, Toml.set_same e' "dependencies" _ hdd]
      | str s => rfl
      | int n => rfl
      | boolean c => rfl
      | table kvs => rfl

theorem maskLockEntryStep_of_fixed (locals : List Package) (e' name : Toml)
    (hv : ∀ p ∈ locals, (parseMajorMinor p.version).isSome)
    (hn' : e'.get "name" = some name)
    (hvc : e'.get "version" = some (.str CONST_VERSION))
    (hd : ∀ ds, e'.get "dependencies" = some (.array ds) →
        rewriteDeps (lockDepStrings locals) ds = some ds) :
    maskLockEntryStep locals e' = some e' := by
  obtain ⟨b2, hb2⟩ := Option.isSome_iff_exists.mp (anyCovers_const_isSome locals name hv)
  have hsel' : isLocalEntry locals e' = some b2 := by
    simp [isLocalEntry, hn', hvc, hb2]
  cases b2 with
  | false => simp [maskLockEntryStep, hsel']
  | true => simp [maskLockEntryStep, hsel', maskLockEntry_of_fixed locals e' hvc hd]

theorem maskLockEntryStep_idem (locals : List Package) (e e' : Toml)
    (hv : ∀ p ∈ locals, (parseMajorMinor p.version).isSome)
    (h : maskLockEntryStep locals e = some e') :
    maskLockEntryStep locals e' = some e' := by
  cases hsel : isLocalEntry locals e with
  | none => simp [maskLockEntryStep, hsel] at h
  | some b =>
      cases b with
      | false =>
          have he : e = e' := by simpa [maskLockEntryStep, hsel] using h
          rw [← he]
          simp [maskLockEntryStep, hsel]
      | true =>
          have hmask : maskLockEntry locals e = some e' := by
            simpa [maskLockEntryStep, hsel] using h
          cases hn : e.get "name" with
          | none => simp [isLocalEntry, hn] at hsel
          | some name =>
              cases hver : e.get "version" with
              | none => simp [isLocalEntry, hn, hver] at hsel
              | some version =>
                  have hany : anyCovers locals name version = some true := by
                    simpa [isLocalEntry, hn, hver] using hsel
                  obtain ⟨p, hp, hnm, v, hveq, hcov⟩ :=
                    (anyCovers_some_iff locals name version true hany).mp rfl
                  have hv1 : (e.set "version" (Toml.str CONST_VERSION)).get "version" =
                      some (.str CONST_VERSION) := e.get_set_self "version" _ _ hver
                  have hn1 : (e.set "version" (Toml.str CONST_VERSION)).get "name" =
                      some name := by
                    rw [e.get_set_other "version" "name" _ (by decide)]
                    exact hn
                  cases hdeps : (e.set "version" (Toml.str CONST_VERSION)).get "dependencies" with
                  | none =>
                      have he' : e' = e.set "version" (Toml.str CONST_VERSION) := by
                        simp only [maskLockEntry, hdeps, Option.some_inj] at hmask
                        exact hmask.symm
                      subst he'
                      refine maskLockEntryStep_of_fixed locals _ name hv hn1 hv1 ?_
                      intro ds hds
                      rw [hdeps] at hds
                      exact absurd hds (by simp)
                  | some dv =>
                      cases dv with
                      | array deps =>
                          simp only [maskLockEntry, hdeps] at hmask
                          obtain ⟨ds, hds, rfl⟩ := Option.map_eq_some'.mp hmask
                          have hvc : ((e.set "version" (Toml.str CONST_VERSION)).set
                              "dependencies" (Toml.array ds)).get "version" =
                              some (.str CONST_VERSION) := by
                            rw [Toml.get_set_other _ "dependencies" "version" _ (by decide)]
                            exact hv1
                          have hnc : ((e.set "version" (Toml.str CONST_VERSION)).set
                              "dependencies" (Toml.array ds)).get "name" = some name := by
                            rw [Toml.get_set_other _ "dependencies" "name" _ (by decide)]
                            exact hn1
                          have hdc : ((e.set "version" (Toml.str CONST_VERSION)).set
                              "dependencies" (Toml.array ds)).get "dependencies" =
                              some (.array ds) :=
                            Toml.get_set_self _ "dependencies" _ _ hdeps
                          refine maskLockEntryStep_of_fixed locals _ name hv hnc hvc ?_
                          intro ds2 hds2
                          rw [hdc] at hds2
                          have : ds2 = ds := by
                            have := Option.some_inj.mp hds2
                            simpa using this.symm
                          rw [this]
                          exact rewriteDeps_idem (lockDepStrings locals) deps ds hds
                      | str s2 =>
                          have he' : e' = e.set "version" (Toml.str CONST_VERSION) := by
                            simp only [maskLockEntry, hdeps, Option.some_inj] at hmask
                            exact hmask.symm
                          subst he'
                          refine maskLockEntryStep_of_fixed locals _ name hv hn1 hv1 ?_
                          intro ds hds
                          rw [hdeps] at hds
                          exact absurd hds (by simp)
                      | int n2 =>
                          have he' : e' = e.set "version" (Toml.str CONST_VERSION) := by
                            simp only [maskLockEntry, hdeps, Option.some_inj] at hmask
                            exact hmask.symm
                          subst he'
                          refine maskLockEntryStep_of_fixed locals _ name hv hn1 hv1 ?_
                          intro ds hds
                          rw [hdeps] at hds
                          exact absurd hds (by simp)
                      | boolean c2 =>
                          have he' : e' = e.set "version" (Toml.str CONST_VERSION) := by
                            simp only [maskLockEntry, hdeps, Option.some_inj] at hmask
                            exact hmask.symm
                          subst he'
                          refine maskLockEntryStep_of_fixed locals _ name hv hn1 hv1 ?_
                          intro ds hds
                          rw [hdeps] at hds
                          exact absurd hds (by simp)
                      | table kvs2 =>
                          have he' : e' = e.set "version" (Toml.str CONST_VERSION) := by
                            simp only [maskLockEntry, hdeps, Option.some_inj] at hmask
                            exact hmask.symm
                          subst he'
                          refine maskLockEntryStep_of_fixed locals _ name hv hn1 hv1 ?_
                          intro ds hds
                          rw [hdeps] at hds
                          exact absurd hds (by simp)

theorem maskLockPackages_idem (locals : List Package)
    (hv : ∀ p ∈ locals, (parseMajorMinor p.version).isSome) :
    ∀ es es', maskLockPackages locals es = some es' →
      maskLockPackages locals es' = some es' := by
  intro es
  induction es with
  | nil =>
      intro es' h
      simp only [maskLockPackages, Option.some_inj] at h
      rw [← h]
      rfl
  | cons e rest ih =>
      intro es' h
      simp only [maskLockPackages, Option.bind_eq_bind] at h
      cases he : maskLockEntryStep locals e with
      | none => rw [he] at h; simp at h
      | some e' =>
          rw [he] at h
          simp only [Option.some_bind] at h
          cases hr : maskLockPackages locals rest with
          | none => rw [hr] at h; simp at h
          | some rest' =>
              rw [hr] at h
              simp only [Option.some_bind, Option.pure_def, Option.some_inj] at h
              rw [← h]
              have g1 := maskLockEntryStep_idem locals e e' hv he
              have g2 := ih rest' hr
              simp [maskLockPackages, g1, g2]

theorem mask_lockfile_idem (locals : List Package) (l l' : Toml)
    (hv : ∀ p ∈ locals, (parseMajorMinor p.version).isSome)
    (h : mask_local_versions_in_lockfile locals l = some l') :
    mask_local_versions_in_lockfile locals l' = some l' := by
  cases hg : l.get "package" with
  | none =>
      simp only [mask_local_versions_in_lockfile, hg, Option.some_inj] at h
      rw [← h]
      simp [mask_local_versions_in_lockfile, hg]
  | some v =>
      cases v with
      | array entries =>
          simp only [mask_local_versions_in_lockfile, hg] at h
          obtain ⟨es, hes, rfl⟩ := Option.map_eq_some'.mp h
          have hget : (l.set "package" (.array es)).get "package" = some (.array es) :=
            l.get_set_self "package" (.array entries) _ hg
          have hidem := maskLockPackages_idem locals hv entries es hes
          simp only [mask_local_versions_in_lockfile, hget, hidem, Option.map_some',
            Option.some_inj]
          exact Toml.set_same _ "package" _ hget
      | str s =>
          simp only [mask_local_versions_in_lockfile, hg, Option.some_inj] at h
          rw [← h]
          simp [mask_local_versions_in_lockfile, hg]
      | int n =>
          simp only [mask_local_versions_in_lockfile, hg, Option.some_inj] at h
          rw [← h]
          simp [mask_local_versions_in_lockfile, hg]
      | boolean c =>
          simp only [mask_local_versions_in_lockfile, hg, Option.some_inj] at h
          rw [← h]
          simp [mask_local_versions_in_lockfile, hg]
      | table kvs =>
          simp only [mask_local_versions_in_lockfile, hg, Option.some_inj] at h
          rw [← h]
          simp [mask_local_versions_in_lockfile, hg]

/-- C4 (amended): full masking is not idempotent (see the
counterexample: the entry point re-derives the local-package set from
the already-masked manifests, whose recorded versions have become the
placeholder, so a second run can cover — and mask — requirements the
first run left alone).  What does hold is idempotence of the two
maskers at a fixed local-package set: when every recorded local version
parses as `major.minor`, re-running the manifest masker and the lock
masker with the same local-package set on their own output reproduces
that output exactly. -/
theorem maskers_idempotent_for_fixed_locals (locals : List Package) (ms ms' : List Toml)
    (l l' : Toml)
    (hv : ∀ p ∈ locals, (parseMajorMinor p.version).isSome)
    (hm : mask_local_versions_in_manifests locals ms = some ms')
    (hl : mask_local_versions_in_lockfile locals l = some l') :
    mask_local_versions_in_manifests locals ms' = some ms' ∧
    mask_local_versions_in_lockfile locals l' = some l' :=
  ⟨mask_manifests_idem locals hv ms ms' hm, mask_lockfile_idem locals l l' hv hl⟩

theorem maskers_idempotent_for_fixed_locals_witness :
    mask_local_versions_in_manifests [⟨"bar", "1.0"⟩] [idemManifest1] =
      some [idemManifest1] ∧
    mask_local_versions_in_lockfile [⟨"bar", "1.0"⟩] refsLockMasked =
      some refsLockMasked :=
  maskers_idempotent_for_fixed_locals [⟨"bar", "1.0"⟩] [idemManifest] [idemManifest1]
    refsLock refsLockMasked (by decide) rfl rfl

end VersionMasking
